import Mathlib

/-!
Verification development for `analyse_avr_call_tree.py` (SodaqMoja, 2014).

The script reads an AVR `.lss` disassembly listing, builds per-function
records (name, address, body lines, callee set, stack-frame size) and walks
the call tree from a start symbol, printing one line per visited node and
returning the maximum cumulative stack size it tracked.

This file shallowly embeds the script:
* the three regular expressions (`first_line_pat`, `instr_line_pat`,
  `rest_pat`) become deterministic character-list parsers that reproduce the
  Python `re.match` semantics, including the backtracking around the optional
  second byte group of `instr_line_pat`;
* `Function.__init__`, `analyse_call` and `count_pushes` become functions into
  `Except String _`, where `.error` models an uncaught Python exception
  (`IndexError` on `lines[0]` / `body[-1]`, `TypeError` from
  `rest_pat.match(None)`, `AttributeError`/`IndexError`/`ValueError` in the
  `sbiw`/`subi` immediate parsing);
* `print_call_tree` becomes a total function returning the result together
  with the list of printed lines (modelled structurally by `Line`).

The script is Python-2 era (2014, bare `python` shebang, written well before
Python 3 became the default).  Under Python 2 the bare `return` in the
depth-cap branch of `print_call_tree` yields `None`, and the caller's
`max(this_ss, max_ss)` evaluates to `max_ss` because `None` compares below
every integer.  We model that `None` as `Option.none` and `max` as `pymax`.
(Under Python 3 the same `max(None, int)` raises `TypeError`; either way the
capped node's printed cumulative size never reaches the returned maximum.)
-/

namespace Avr

/-! ### Character classes (ASCII, as used by the byte/ASCII regexes) -/

/-- Python regex `\s` for the ASCII range: space, tab, newline, vertical tab,
form feed, carriage return. -/
def isWsChar (c : Char) : Bool :=
  c = ' ' || c = '\t' || c = '\n' || c = '\x0b' || c = '\x0c' || c = '\r'

/-- Character class `[0-9a-f]` (lowercase hex digits, as in the patterns). -/
def isHexL (c : Char) : Bool :=
  ('0' ≤ c && c ≤ '9') || ('a' ≤ c && c ≤ 'f')

/-- Python regex `\w` for the ASCII range: `[A-Za-z0-9_]`. -/
def isWordChar (c : Char) : Bool :=
  ('0' ≤ c && c ≤ '9') || ('a' ≤ c && c ≤ 'z') || ('A' ≤ c && c ≤ 'Z') || c = '_'

/-- Maximal run of characters satisfying `p` (greedy matching of `p*`),
returning the run and the remaining characters. -/
def takeRun (p : Char → Bool) : List Char → List Char × List Char
  | [] => ([], [])
  | c :: cs =>
    if p c then
      let r := takeRun p cs
      (c :: r.1, r.2)
    else ([], c :: cs)

/-! ### Python string primitives used by the script -/

/-- Python `str.strip()` on a character list. -/
def pyStripL (cs : List Char) : List Char :=
  ((cs.dropWhile isWsChar).reverse.dropWhile isWsChar).reverse

/-- Python `str.strip()`. -/
def pyStrip (s : String) : String := ⟨pyStripL s.data⟩

/-- Helper for `pySplit`: `cur` is the reversed word being accumulated. -/
def pySplitAux : List Char → List Char → List (List Char)
  | cur, [] => if cur.isEmpty then [] else [cur.reverse]
  | cur, c :: cs =>
    if isWsChar c then
      if cur.isEmpty then pySplitAux [] cs
      else cur.reverse :: pySplitAux [] cs
    else pySplitAux (c :: cur) cs

/-- Python `str.split()` with no separator argument: splits on whitespace
runs and drops empty pieces. -/
def pySplit (s : String) : List String :=
  (pySplitAux [] s.data).map (fun w => ⟨w⟩)

/-- Value of one hex digit; accepts both cases. -/
def hexDigitVal (c : Char) : Option Nat :=
  if '0' ≤ c ∧ c ≤ '9' then some (c.toNat - '0'.toNat)
  else if 'a' ≤ c ∧ c ≤ 'f' then some (c.toNat - 'a'.toNat + 10)
  else if 'A' ≤ c ∧ c ≤ 'F' then some (c.toNat - 'A'.toNat + 10)
  else none

/-- Value of a nonempty all-hex character run; `none` if empty or any
character is not a hex digit. -/
def hexNat? (cs : List Char) : Option Nat :=
  match cs with
  | [] => none
  | _ =>
    cs.foldl
      (fun acc c =>
        match acc, hexDigitVal c with
        | some a, some d => some (16 * a + d)
        | _, _ => none)
      (some 0)

/-- Value of a lowercase-hex run already validated by the regex (used for the
`addr` groups, which the patterns constrain to `[0-9a-f]+`). -/
def hexVal (cs : List Char) : Nat :=
  cs.foldl (fun a c => 16 * a + (hexDigitVal c).getD 0) 0

/-- Optional `0x`/`0X` base marker, then a nonempty hex-digit run. -/
def pyIntHexCore : List Char → Option Nat
  | '0' :: x :: cs => if x = 'x' ∨ x = 'X' then hexNat? cs else hexNat? ('0' :: x :: cs)
  | cs => hexNat? cs

/-- Python `int(tok, 16)` for a whitespace-free token: optional sign,
optional `0x`/`0X`, then hex digits; `none` models `ValueError`.
(Digit-group underscores, legal since Python 3.6, are not modelled; they
never occur in disassembly operands.) -/
def pyIntHex (s : String) : Option Int :=
  match s.data with
  | '-' :: cs => (pyIntHexCore cs).map (fun n => -(n : Int))
  | '+' :: cs => (pyIntHexCore cs).map (fun n => (n : Int))
  | cs => (pyIntHexCore cs).map (fun n => (n : Int))

/-! ### The three regex matchers of the script -/

/-- Result of `instr_line_pat.match`: the script only reads the `opc` and
`rest` groups (`addr` and the byte groups are validated but unused). -/
structure Instr where
  opc : String
  rest : Option String
deriving DecidableEq, Repr

/-- The trailing `(\s+(?P<rest>.*))?` group: present only when at least one
whitespace character follows the opcode; `.*` stops at a newline. -/
def restOf (cs : List Char) : Option String :=
  match takeRun isWsChar cs with
  | ([], _) => none
  | (_ :: _, cs1) => some ⟨(takeRun (fun c => c ≠ '\n') cs1).1⟩

/-- One `[0-9a-f]{2} \s [0-9a-f]{2}` byte group. -/
def parseBytePair : List Char → Option (List Char)
  | a :: b :: w :: c :: d :: cs =>
    if isHexL a && isHexL b && isWsChar w && isHexL c && isHexL d then some cs else none
  | _ => none

/-- Opcode and rest when the optional second byte group does not participate
(the regex falls back to matching `(?P<opc>\w+)` directly). -/
def fallbackOpc (cs : List Char) : Option Instr :=
  match takeRun isWordChar cs with
  | ([], _) => none
  | (opc, cs1) => some ⟨⟨opc⟩, restOf cs1⟩

/-- `instr_line_pat.match` on a character list:
`(?P<addr>[0-9a-f]+): \s+ (?P<byts1>[0-9a-f]{2} \s [0-9a-f]{2}) \s+
((?P<byts2>[0-9a-f]{2} \s [0-9a-f]{2}) \s+)? (?P<opc>\w+) (\s+ (?P<rest>.*))?`.
All adjacent subpatterns here have disjoint first-character classes, so the
greedy runs are deterministic; the only backtracking point is the optional
`byts2` group, which the regex engine prefers to take and abandons when the
following `\s+ \w+` cannot be completed. -/
def instrMatchL (cs : List Char) : Option Instr :=
  match takeRun isHexL cs with
  | ([], _) => none
  | (_ :: _, cs1) =>
    match cs1 with
    | ':' :: cs2 =>
      match takeRun isWsChar cs2 with
      | ([], _) => none
      | (_ :: _, cs3) =>
        match parseBytePair cs3 with
        | none => none
        | some cs4 =>
          match takeRun isWsChar cs4 with
          | ([], _) => none
          | (_ :: _, cs5) =>
            match parseBytePair cs5 with
            | some cs6 =>
              match takeRun isWsChar cs6 with
              | ([], _) => fallbackOpc cs5
              | (_ :: _, cs7) =>
                match takeRun isWordChar cs7 with
                | ([], _) => fallbackOpc cs5
                | (opc, cs8) => some ⟨⟨opc⟩, restOf cs8⟩
            | none => fallbackOpc cs5
    | _ => none

/-- `instr_line_pat.match` on a string. -/
def instrMatch (s : String) : Option Instr := instrMatchL s.data

/-- `first_line_pat.match`: `(?P<addr>[0-9a-f]+)\s+<(?P<name>\w+)>:`, applied
to the unstripped first line of a block; returns `(int(addr, 16), name)`. -/
def headerMatch (s : String) : Option (Nat × String) :=
  match takeRun isHexL s.data with
  | ([], _) => none
  | (a, cs1) =>
    match takeRun isWsChar cs1 with
    | ([], _) => none
    | (_ :: _, cs2) =>
      match cs2 with
      | '<' :: cs3 =>
        match takeRun isWordChar cs3 with
        | ([], _) => none
        | (nm, cs4) =>
          match cs4 with
          | '>' :: ':' :: _ => some (hexVal a, ⟨nm⟩)
          | _ => none
      | _ => none

/-- `rest_pat.match`: `(?P<opnd>\S+) \s+ ; \s+ (?P<addr>[x0-9a-f]+) \s+
<(?P<name>\w+)>`; the script only reads the `name` group. -/
def restMatch (s : String) : Option String :=
  match takeRun (fun c => !isWsChar c) s.data with
  | ([], _) => none
  | (_ :: _, cs1) =>
    match takeRun isWsChar cs1 with
    | ([], _) => none
    | (_ :: _, cs2) =>
      match cs2 with
      | ';' :: cs3 =>
        match takeRun isWsChar cs3 with
        | ([], _) => none
        | (_ :: _, cs4) =>
          match takeRun (fun c => c = 'x' || isHexL c) cs4 with
          | ([], _) => none
          | (_ :: _, cs5) =>
            match takeRun isWsChar cs5 with
            | ([], _) => none
            | (_ :: _, cs6) =>
              match cs6 with
              | '<' :: cs7 =>
                match takeRun isWordChar cs7 with
                | ([], _) => none
                | (nm, cs8) =>
                  match cs8 with
                  | '>' :: _ => some ⟨nm⟩
                  | _ => none
              | _ => none
      | _ => none

/-- Opcode of a body line, after the script's `line.strip()`:
`instr_line_pat.match(line.strip()).group('opc')`. -/
def opcOf (b : String) : Option String := (instrMatch (pyStrip b)).map Instr.opc

/-- Rest group of a body line after stripping, when the line matches. -/
def restOfLine (b : String) : Option String := (instrMatch (pyStrip b)).bind Instr.rest

/-! ### `Function.analyse_call` -/

/-- `Function.analyse_call(line, is_last)`: returns the callee name to add to
the callee set, if any.  `.error` models the `TypeError` that
`rest_pat.match(None)` raises when a `call`/`rcall` (or trailing
`jmp`/`rjmp`) line has no text after the opcode, so `m2.group('rest')` is
`None`. -/
def analyse_call (line : String) (is_last : Bool) : Except String (Option String) :=
  match instrMatch (pyStrip line) with
  | none => .ok none
  | some m =>
    if m.opc = "call" ∨ m.opc = "rcall" ∨ (is_last = true ∧ (m.opc = "jmp" ∨ m.opc = "rjmp")) then
      match m.rest with
      | none => .error "TypeError: expected string or bytes-like object"
      | some r => .ok (restMatch r)
    else if m.opc = "icall" then .ok none
    else .ok none

/-- Adding an optional callee name to the callee set.  The Python `_callees`
is a `set`; we model its contents as a duplicate-free list in first-insertion
order (the set's iteration order is arbitrary — see the enumeration-order
independence theorem for the walker). -/
def setAdd (s : List String) : Option String → List String
  | none => s
  | some c => if c ∈ s then s else s ++ [c]

/-- The callee-collection loop of `Function.__init__`: every body line except
the last is analysed with `is_last=False`, the last with `is_last=True`
(`self._body[-1]`); an empty body raises `IndexError` on `self._body[-1]`. -/
def processBody (s : List String) : List String → Except String (List String)
  | [] => .error "IndexError: list index out of range"
  | [b] =>
    match analyse_call b true with
    | .error e => .error e
    | .ok x => .ok (setAdd s x)
  | b :: b2 :: rest =>
    match analyse_call b false with
    | .error e => .error e
    | .ok x => processBody (setAdd s x) (b2 :: rest)

/-! ### `Function.count_pushes` (the Stack-Frame Estimator) -/

/-- The scanning loop of `count_pushes`, with its three state variables
`count`, `done_pushes`, `nr_in`.  Error values model the Python exceptions on
a malformed `sbiw`/`subi` line: `AttributeError` (`None.split()`),
`IndexError` (`v[0]`/`v[1]` on a too-short split) and `ValueError`
(`int(v[1], 16)` on a non-hex token). -/
def count_pushes_loop (count : Int) (done_pushes : Bool) (nr_in : Nat) :
    List String → Except String Int
  | [] => .ok count
  | b :: rest =>
    match instrMatch (pyStrip b) with
    | none => count_pushes_loop count done_pushes nr_in rest
    | some m =>
      if done_pushes = false ∧ m.opc = "push" then
        count_pushes_loop (count + 1) done_pushes nr_in rest
      else
        -- done_pushes is set to True and control falls through in the same
        -- iteration, exactly as in the Python loop.
        if nr_in < 2 ∧ m.opc = "in" then
          count_pushes_loop count true (nr_in + 1) rest
        else if nr_in = 2 ∧ (m.opc = "sbiw" ∨ m.opc = "subi") then
          match m.rest with
          | none => .error "AttributeError: NoneType has no attribute split"
          | some r =>
            match pySplit r with
            | [] => .error "IndexError: list index out of range"
            | v0 :: vtail =>
              if v0 = "r28," then
                match vtail with
                | [] => .error "IndexError: list index out of range"
                | v1 :: _ =>
                  match pyIntHex v1 with
                  | none => .error "ValueError: invalid literal for int with base 16"
                  | some num => .ok (count + num)   -- `break`: scanning stops here
              else count_pushes_loop count true 2 rest
        else count_pushes_loop count true nr_in rest

/-- `Function.count_pushes`: stack-frame size of a body in bytes. -/
def count_pushes (body : List String) : Except String Int :=
  count_pushes_loop 0 false 0 body

deriving instance DecidableEq for Except

/-! ### The `Function` record -/

/-- A parsed function record: `Function` objects are immutable once built. -/
structure Function where
  name : String
  addr : Nat
  body : List String
  callees : List String
  stacksize : Int
deriving DecidableEq, Repr

/-- `Function.__init__(lines)`: match the header on the raw first line; on
failure fall back to name `"unknown"`, address `0`, keeping the first line in
the body.  Then collect callees and compute the stack frame, propagating any
exception. -/
def Function.init (lines : List String) : Except String Function :=
  match lines with
  | [] => .error "IndexError: list index out of range"
  | l0 :: rest =>
    let hdr := headerMatch l0
    let name : String := match hdr with | some p => p.2 | none => "unknown"
    let addr : Nat := match hdr with | some p => p.1 | none => 0
    let body : List String := match hdr with | some _ => rest | none => l0 :: rest
    match processBody [] body with
    | .error e => .error e
    | .ok cs =>
      match count_pushes body with
      | .error e => .error e
      | .ok ss => .ok ⟨name, addr, body, cs, ss⟩

/-! ### The call-tree walker (`print_call_tree`) -/

/-- The global `all_funcs` dictionary: the walker only ever looks names up in
it, so we model it as a lookup function. -/
abbrev Index := String → Option Function

/-- One printed line of the walker, kept structurally: the per-node line
(`"%3d %3d <indent><name>"` with cumulative size, own size, indentation depth,
name), the `" !!!! Nested too deeply"` marker and the
`"<name> !!!! Recursive call"` marker. -/
inductive Line where
  | node (cum own : Int) (level : Nat) (name : String)
  | tooDeep (level : Nat)
  | recur (level : Nat) (name : String)
deriving DecidableEq, Repr

/-- `max(this_ss, max_ss)` where `this_ss` is the value of a recursive
`print_call_tree` call, which is `None` when the depth cap fired (the bare
`return` on the `level > 20` branch).  Under Python 2, `None` compares below
every integer, so `max(None, m) = m`. -/
def pymax : Option Int → Int → Int
  | none, m => m
  | some v, m => max v m

/-- `my_stacksize` of a node: the found function's stack size, `0` when the
name misses the index. -/
def ownSize (idx : Index) (n : String) : Int :=
  match idx n with
  | some f => f.stacksize
  | none => 0

/-- Callee list of a name, empty when the name misses the index. -/
def calleesOf (idx : Index) (n : String) : List String :=
  match idx n with
  | some f => f.callees
  | none => []

/-- One unfolding of `print_call_tree`, parameterised by the function used
for the recursive calls.  Mirrors the Python body: print the node line, stop
with the too-deep marker when `level > 20`, otherwise fold over the callees,
skipping a callee equal to the current name (printing the recursion marker)
and otherwise recursing at `level + 1` and maxing the results. -/
def pctAux (idx : Index) (recurse : String → Int → Nat → Option Int × List Line)
    (funcname : String) (stacksize : Int) (level : Nat) : Option Int × List Line :=
  let my_stacksize := ownSize idx funcname
  let total := stacksize + my_stacksize
  let hd := Line.node total my_stacksize level funcname
  if level > 20 then (none, [hd, Line.tooDeep level])
  else
    match idx funcname with
    | none => (some total, [hd])
    | some f =>
      let r := f.callees.foldl
        (fun acc c =>
          if c = funcname then (acc.1, acc.2 ++ [Line.recur level funcname])
          else
            let ch := recurse c total (level + 1)
            (pymax ch.1 acc.1, acc.2 ++ ch.2))
        (total, [])
      (some r.1, hd :: r.2)

/-- Fuelled walker.  The fuel is an embedding artifact that makes the
recursion structural (and hence kernel-reducible): the wrapper below always
supplies `22 - level`, which never runs out because the `level > 20` branch
returns before any recursive call. -/
def pctN (idx : Index) : Nat → String → Int → Nat → Option Int × List Line
  | 0 => pctAux idx (fun _ _ _ => (none, []))
  | fuel + 1 => pctAux idx (fun c s l => pctN idx fuel c s l)

/-- `print_call_tree(args, funcname, stacksize, level)`: returns the Python
return value (`None` exactly on the capped branch) and the printed lines. -/
def print_call_tree (idx : Index) (funcname : String) (stacksize : Int) (level : Nat) :
    Option Int × List Line :=
  pctN idx (22 - level) funcname stacksize level

/-- The step function of the callee fold, with the recursive calls expressed
through `print_call_tree` itself (see `print_call_tree_unfold`). -/
def pctStep (idx : Index) (funcname : String) (total : Int) (level : Nat)
    (acc : Int × List Line) (c : String) : Int × List Line :=
  if c = funcname then (acc.1, acc.2 ++ [Line.recur level funcname])
  else
    let ch := print_call_tree idx c total (level + 1)
    (pymax ch.1 acc.1, acc.2 ++ ch.2)

/-- `max_ss` after the callee loop, as a fold over the callee list. -/
def walkFst (idx : Index) (funcname : String) (total : Int) (level : Nat)
    (cs : List String) (m : Int) : Int :=
  cs.foldl
    (fun acc c =>
      if c = funcname then acc
      else pymax (print_call_tree idx c total (level + 1)).1 acc)
    m

/-- Lines printed by the callee loop, in order. -/
def walkLines (idx : Index) (funcname : String) (total : Int) (level : Nat) :
    List String → List Line
  | [] => []
  | c :: cs =>
    (if c = funcname then [Line.recur level funcname]
     else (print_call_tree idx c total (level + 1)).2)
      ++ walkLines idx funcname total level cs

/-- The `main` flow around the walk: warn (on stderr) iff the requested root
is missing from the index, then run the walk anyway from `(0, 0)` and report
its value as the deepest stack size. -/
def main_model (idx : Index) (func : String) : Bool × (Option Int × List Line) :=
  ((idx func).isNone, print_call_tree idx func 0 0)

/-! ### Observations on the walker output, and the spec-side path notions -/

/-- True when no `" !!!! Nested too deeply"` marker was printed. -/
def noTooDeep (ls : List Line) : Bool :=
  ls.all fun l => match l with | .tooDeep _ => false | _ => true

/-- Cumulative sizes of the printed node lines whose depth is within the cap
(depth at most 20), in print order. -/
def cappedCums : List Line → List Int
  | [] => []
  | .node cum _ lvl _ :: ls => if lvl ≤ 20 then cum :: cappedCums ls else cappedCums ls
  | _ :: ls => cappedCums ls

/-- Maximum of the within-cap cumulative sizes of a line list (`0` when there
is none; the walker always prints its own node line first, so the list is
never empty where this is used). -/
def maxCumCapped (ls : List Line) : Int :=
  match cappedCums ls with
  | [] => 0
  | x :: xs => xs.foldl max x

/-- Modelled from the spec: a path "from the start node downward" follows
callee edges, never stepping from a function to itself (the walker's direct
self-recursion guard).  The list is the sequence of visited names. -/
def specGoodPath (idx : Index) : List String → Bool
  | [] => false
  | [_] => true
  | a :: b :: rest =>
    (calleesOf idx a).contains b && !(b == a) && specGoodPath idx (b :: rest)

/-- Modelled from the spec: the cumulative stack size at the end of a path is
the sum of the own stack sizes of the visited nodes (absent nodes contribute
zero). -/
def specPathCum (idx : Index) (p : List String) : Int :=
  (p.map (ownSize idx)).sum

/-- The property the spec claims of the walker at a node: it returns a value
that is exactly the maximum, over the good paths starting at this node, of
the ancestor total plus the path's cumulative size. -/
def PathsOk (idx : Index) (n : String) (ss : Int) (level : Nat) : Prop :=
  ∃ m, (print_call_tree idx n ss level).1 = some m
    ∧ (∀ p, p.head? = some n → specGoodPath idx p = true → ss + specPathCum idx p ≤ m)
    ∧ ∃ p, p.head? = some n ∧ specGoodPath idx p = true ∧ ss + specPathCum idx p = m

/-- Two indexes that agree on which names are present, on stack sizes, and on
callee sets up to enumeration order (the Python `set` exposes its elements in
arbitrary order). -/
def IndexEquiv (idx idx' : Index) : Prop :=
  ∀ n, (idx n = none ∧ idx' n = none) ∨
    ∃ f f', idx n = some f ∧ idx' n = some f' ∧
      f.stacksize = f'.stacksize ∧ f.callees.Perm f'.callees

/-! ### Concrete instances used by the claim theorems -/

/-- The spec's worked example: `A` (stack 10) calls only `B` (stack 5), which
calls only `C` (stack 3). -/
def exABC : Index := fun n =>
  if n = "A" then some ⟨"A", 0, [], ["B"], 10⟩
  else if n = "B" then some ⟨"B", 0, [], ["C"], 5⟩
  else if n = "C" then some ⟨"C", 0, [], [], 3⟩
  else none

/-- A two-cycle `A → B → A`, each function with stack size 1: the shape the
depth cap exists for. -/
def cycIdx : Index := fun n =>
  if n = "A" then some ⟨"A", 0, [], ["B"], 1⟩
  else if n = "B" then some ⟨"B", 0, [], ["A"], 1⟩
  else none

/-- A 22-deep linear chain `f00 → f01 → … → f21`, each function with stack
size 1 and no cycle at all. -/
def chainSpec : List (String × List String) :=
  [("f00", ["f01"]), ("f01", ["f02"]), ("f02", ["f03"]), ("f03", ["f04"]),
   ("f04", ["f05"]), ("f05", ["f06"]), ("f06", ["f07"]), ("f07", ["f08"]),
   ("f08", ["f09"]), ("f09", ["f10"]), ("f10", ["f11"]), ("f11", ["f12"]),
   ("f12", ["f13"]), ("f13", ["f14"]), ("f14", ["f15"]), ("f15", ["f16"]),
   ("f16", ["f17"]), ("f17", ["f18"]), ("f18", ["f19"]), ("f19", ["f20"]),
   ("f20", ["f21"]), ("f21", [])]

def chainIdx : Index := fun n =>
  (chainSpec.find? (fun p => p.1 == n)).map (fun p => ⟨p.1, 0, [], p.2, 1⟩)

/-- The full downward path through the chain (22 nodes). -/
def chainPath : List String := chainSpec.map Prod.fst

/-- Three pushes, the two stack-pointer reads, and a 14-byte `sbiw`:
the spec's worked estimator example (expected 3 + 14 = 17). -/
def c3Body : List String :=
  ["100: 0f 93 \tpush\tr0",
   "102: 1f 93 \tpush\tr1",
   "104: cf 93 \tpush\tr28",
   "106: cd b7 \tin\tr28, 0x3d\t; 61",
   "108: de b7 \tin\tr29, 0x3e\t; 62",
   "10a: 2e 97 \tsbiw\tr28, 0x0e\t; 14"]

/-- One push, then a `movw` breaking the expected prologue sequence, then the
two `in`s and the `sbiw` — the claim predicts the scan stops at the `movw`
with count 1; the code keeps scanning and returns 1 + 14 = 15. -/
def c4Body : List String :=
  ["574c: 0f 93 \tpush\tr0",
   "574e: cd 01 \tmovw\tr24, r26",
   "5750: cd b7 \tin\tr28, 0x3d\t; 61",
   "5752: de b7 \tin\tr29, 0x3e\t; 62",
   "5754: 2e 97 \tsbiw\tr28, 0x0e\t; 14"]

/-- A body with a resolved `call`, a resolved `rcall`, and a final `ret`. -/
def c5Body : List String :=
  [" 100: 0e 94 \tcall\t0x83a\t; 0x83a <foo>",
   " 104: 20 df \trcall\t.-448\t; 0x83a <bar>",
   " 108: 08 95 \tret"]

/-- A directly self-recursive function: `A` calls only itself. -/
def c9F : Function := ⟨"A", 0, [], ["A"], 7⟩

def c9Idx : Index := fun n => if n = "A" then some c9F else none

/-- Same index twice, with `A`'s callee set enumerated in two orders. -/
def c10A : Index := fun n =>
  if n = "A" then some ⟨"A", 0, [], ["B", "C"], 2⟩
  else if n = "B" then some ⟨"B", 0, [], [], 5⟩
  else if n = "C" then some ⟨"C", 0, [], [], 3⟩
  else none

def c10B : Index := fun n =>
  if n = "A" then some ⟨"A", 0, [], ["C", "B"], 2⟩
  else if n = "B" then some ⟨"B", 0, [], [], 5⟩
  else if n = "C" then some ⟨"C", 0, [], [], 3⟩
  else none

/-! ### Unfolding lemmas for the walker -/

theorem print_call_tree_unfold (idx : Index) (n : String) (ss : Int) (level : Nat) :
    print_call_tree idx n ss level =
      (if level > 20 then
        (none, [Line.node (ss + ownSize idx n) (ownSize idx n) level n, Line.tooDeep level])
      else
        match idx n with
        | none =>
          (some (ss + ownSize idx n), [Line.node (ss + ownSize idx n) (ownSize idx n) level n])
        | some f =>
          let r := f.callees.foldl (pctStep idx n (ss + ownSize idx n) level)
            (ss + ownSize idx n, [])
          (some r.1, Line.node (ss + ownSize idx n) (ownSize idx n) level n :: r.2)) := by
  by_cases h : level > 20
  · rcases h22 : 22 - level with _ | fuel <;> simp [print_call_tree, h22, pctN, pctAux, h]
  · have h22 : 22 - level = (21 - level) + 1 := by omega
    have h21 : 22 - (level + 1) = 21 - level := by omega
    have hstep : (fun (acc : Int × List Line) (c : String) =>
        if c = n then (acc.1, acc.2 ++ [Line.recur level n])
        else
          let ch := pctN idx (21 - level) c (ss + ownSize idx n) (level + 1)
          (pymax ch.1 acc.1, acc.2 ++ ch.2))
        = pctStep idx n (ss + ownSize idx n) level := by
      funext acc c
      simp only [pctStep, print_call_tree, h21]
    rw [print_call_tree, h22]
    show pctAux idx (fun c s l => pctN idx (21 - level) c s l) n ss level = _
    rw [pctAux]
    simp only [if_neg h]
    cases hidx : idx n with
    | none => rfl
    | some f => simp only [hstep]

/-- Behaviour on the capped branch: the node line and the too-deep marker are
printed and `None` is returned, callees are not visited. -/
theorem pct_deep (idx : Index) (n : String) (ss : Int) (level : Nat) (h : level > 20) :
    print_call_tree idx n ss level =
      (none, [Line.node (ss + ownSize idx n) (ownSize idx n) level n, Line.tooDeep level]) := by
  rw [print_call_tree_unfold]; simp [h]

/-- Behaviour on a name that misses the index (within the cap): a leaf with
own size zero. -/
theorem pct_absent (idx : Index) (n : String) (ss : Int) (level : Nat)
    (h : ¬ level > 20) (hn : idx n = none) :
    print_call_tree idx n ss level = (some ss, [Line.node ss 0 level n]) := by
  rw [print_call_tree_unfold]
  simp [h, hn, ownSize]

theorem foldl_pctStep_split (idx : Index) (n : String) (total : Int) (level : Nat)
    (cs : List String) :
    ∀ (m : Int) (ls : List Line),
      cs.foldl (pctStep idx n total level) (m, ls)
        = (walkFst idx n total level cs m, ls ++ walkLines idx n total level cs) := by
  induction cs with
  | nil => intro m ls; simp [walkFst, walkLines]
  | cons c cs ih =>
    intro m ls
    by_cases hc : c = n
    · simpa [List.foldl_cons, pctStep, walkFst, walkLines, hc, List.append_assoc] using
        ih m (ls ++ [Line.recur level n])
    · simpa [List.foldl_cons, pctStep, walkFst, walkLines, hc, List.append_assoc] using
        ih (pymax (print_call_tree idx c total (level + 1)).1 m)
          (ls ++ (print_call_tree idx c total (level + 1)).2)

/-- Behaviour on a found name (within the cap): fold over the callees. -/
theorem pct_found (idx : Index) (n : String) (ss : Int) (level : Nat) (f : Function)
    (h : ¬ level > 20) (hn : idx n = some f) :
    print_call_tree idx n ss level =
      (some (walkFst idx n (ss + f.stacksize) level f.callees (ss + f.stacksize)),
       Line.node (ss + f.stacksize) f.stacksize level n
         :: walkLines idx n (ss + f.stacksize) level f.callees) := by
  rw [print_call_tree_unfold]
  simp only [if_neg h, hn, ownSize, foldl_pctStep_split, List.nil_append]

/-! ### Small facts about `pymax` and the callee fold -/

theorem le_pymax (x : Option Int) (m : Int) : m ≤ pymax x m := by
  cases x with
  | none => exact le_refl m
  | some v => exact le_max_right v m

theorem pymax_mono (x : Option Int) {m m' : Int} (h : m ≤ m') : pymax x m ≤ pymax x m' := by
  cases x with
  | none => exact h
  | some v => exact max_le_max (le_refl v) h

theorem pymax_swap (x y : Option Int) (m : Int) :
    pymax x (pymax y m) = pymax y (pymax x m) := by
  cases x <;> cases y <;> simp [pymax, max_left_comm]

theorem walkFst_nil (idx : Index) (n : String) (total : Int) (level : Nat) (m : Int) :
    walkFst idx n total level [] m = m := rfl

theorem walkFst_cons_self (idx : Index) (n : String) (total : Int) (level : Nat)
    {c : String} (cs : List String) (m : Int) (hc : c = n) :
    walkFst idx n total level (c :: cs) m = walkFst idx n total level cs m := by
  simp [walkFst, List.foldl_cons, hc]

theorem walkFst_cons_other (idx : Index) (n : String) (total : Int) (level : Nat)
    {c : String} (cs : List String) (m : Int) (hc : ¬ c = n) :
    walkFst idx n total level (c :: cs) m
      = walkFst idx n total level cs (pymax (print_call_tree idx c total (level + 1)).1 m) := by
  simp [walkFst, List.foldl_cons, hc]

theorem walkFst_mono (idx : Index) (n : String) (total : Int) (level : Nat)
    (cs : List String) : ∀ {m m' : Int}, m ≤ m' →
    walkFst idx n total level cs m ≤ walkFst idx n total level cs m' := by
  induction cs with
  | nil => intro m m' h; exact h
  | cons c cs ih =>
    intro m m' h
    by_cases hc : c = n
    · rw [walkFst_cons_self _ _ _ _ _ _ hc, walkFst_cons_self _ _ _ _ _ _ hc]
      exact ih h
    · rw [walkFst_cons_other _ _ _ _ _ _ hc, walkFst_cons_other _ _ _ _ _ _ hc]
      exact ih (pymax_mono _ h)

theorem le_walkFst (idx : Index) (n : String) (total : Int) (level : Nat)
    (cs : List String) : ∀ (m : Int), m ≤ walkFst idx n total level cs m := by
  induction cs with
  | nil => intro m; exact le_refl m
  | cons c cs ih =>
    intro m
    by_cases hc : c = n
    · rw [walkFst_cons_self _ _ _ _ _ _ hc]; exact ih m
    · rw [walkFst_cons_other _ _ _ _ _ _ hc]
      exact le_trans (le_pymax _ m) (ih _)

theorem walkFst_child_le (idx : Index) (n : String) (total : Int) (level : Nat)
    (cs : List String) : ∀ (m v : Int) (c : String), c ∈ cs → ¬ c = n →
    (print_call_tree idx c total (level + 1)).1 = some v →
    v ≤ walkFst idx n total level cs m := by
  induction cs with
  | nil => intro m v c hc; exact absurd hc (List.not_mem_nil c)
  | cons a cs ih =>
    intro m v c hc hne hv
    rcases List.mem_cons.mp hc with h | h
    · subst h
      rw [walkFst_cons_other _ _ _ _ _ _ hne, hv]
      calc v ≤ max v m := le_max_left v m
        _ = pymax (some v) m := rfl
        _ ≤ walkFst idx n total level cs (pymax (some v) m) := le_walkFst _ _ _ _ _ _
    · by_cases ha : a = n
      · rw [walkFst_cons_self _ _ _ _ _ _ ha]; exact ih m v c h hne hv
      · rw [walkFst_cons_other _ _ _ _ _ _ ha]; exact ih _ v c h hne hv

theorem walkFst_attained (idx : Index) (n : String) (total : Int) (level : Nat)
    (cs : List String) : ∀ (m : Int),
    walkFst idx n total level cs m = m ∨
    ∃ c ∈ cs, ¬ c = n ∧
      (print_call_tree idx c total (level + 1)).1 = some (walkFst idx n total level cs m) := by
  induction cs with
  | nil => intro m; exact Or.inl rfl
  | cons a cs ih =>
    intro m
    by_cases ha : a = n
    · rw [walkFst_cons_self _ _ _ _ _ _ ha]
      rcases ih m with h | ⟨c, hc, hne, hv⟩
      · exact Or.inl h
      · exact Or.inr ⟨c, List.mem_cons_of_mem a hc, hne, hv⟩
    · rw [walkFst_cons_other _ _ _ _ _ _ ha]
      rcases ih (pymax (print_call_tree idx a total (level + 1)).1 m) with h | ⟨c, hc, hne, hv⟩
      · rcases hch : (print_call_tree idx a total (level + 1)).1 with _ | v
        · rw [hch] at h; exact Or.inl h
        · rw [hch] at h
          rcases max_choice v m with hm | hm
          -- `pymax (some v) m = max v m`
          · refine Or.inr ⟨a, List.mem_cons_self a cs, ha, ?_⟩
            rw [hch, h]
            have hv : pymax (some v) m = v := by simpa [pymax] using hm
            rw [hv]
          · refine Or.inl ?_
            rw [h]
            simpa [pymax] using hm
      · exact Or.inr ⟨c, List.mem_cons_of_mem a hc, hne, hv⟩

theorem walkFst_all_self (idx : Index) (n : String) (total : Int) (level : Nat)
    (cs : List String) (hall : ∀ c ∈ cs, c = n) (m : Int) :
    walkFst idx n total level cs m = m := by
  induction cs with
  | nil => rfl
  | cons a cs ih =>
    rw [walkFst_cons_self _ _ _ _ _ _ (hall a (List.mem_cons_self a cs))]
    exact ih fun c hc => hall c (List.mem_cons_of_mem a hc)

theorem walkLines_mem_child (idx : Index) (n : String) (total : Int) (level : Nat)
    (cs : List String) {c : String} (hc : c ∈ cs) (hne : ¬ c = n)
    {l : Line} (hl : l ∈ (print_call_tree idx c total (level + 1)).2) :
    l ∈ walkLines idx n total level cs := by
  induction cs with
  | nil => exact absurd hc (List.not_mem_nil c)
  | cons a cs ih =>
    rcases List.mem_cons.mp hc with h | h
    · subst h
      simp only [walkLines, if_neg hne]
      exact List.mem_append_left _ hl
    · simp only [walkLines]
      exact List.mem_append_right _ (ih h)

theorem walkLines_mem_recur (idx : Index) (n : String) (total : Int) (level : Nat)
    (cs : List String) (hc : n ∈ cs) :
    Line.recur level n ∈ walkLines idx n total level cs := by
  induction cs with
  | nil => exact absurd hc (List.not_mem_nil n)
  | cons a cs ih =>
    rcases List.mem_cons.mp hc with h | h
    · simp [walkLines, h.symm]
    · simp only [walkLines]
      exact List.mem_append_right _ (ih h)

/-- Generic: a left fold is invariant under permutation when the step
function commutes with itself in its second argument. -/
theorem foldl_perm_swap {f : Int → String → Int}
    (hf : ∀ m a b, f (f m a) b = f (f m b) a)
    {l l' : List String} (h : l.Perm l') : ∀ m, l.foldl f m = l'.foldl f m := by
  induction h with
  | nil => intro m; rfl
  | cons x _ ih => intro m; simp only [List.foldl_cons]; exact ih _
  | swap x y l => intro m; simp only [List.foldl_cons]; rw [hf]
  | trans _ _ ih1 ih2 => intro m; rw [ih1 m, ih2 m]

/-! ### The returned value is the maximum within-cap printed cumulative size -/

theorem cappedCums_append (l1 l2 : List Line) :
    cappedCums (l1 ++ l2) = cappedCums l1 ++ cappedCums l2 := by
  induction l1 with
  | nil => rfl
  | cons a l1 ih =>
    cases a with
    | node cum own lvl nm =>
      by_cases h : lvl ≤ 20 <;> simp [cappedCums, h, ih]
    | tooDeep lv => simp [cappedCums, ih]
    | recur lv nm => simp [cappedCums, ih]

theorem foldl_max_init (l : List Int) :
    ∀ (a b : Int), List.foldl max (max a b) l = max a (List.foldl max b l) := by
  induction l with
  | nil => intro a b; rfl
  | cons c l ih => intro a b; simp only [List.foldl_cons]; rw [max_assoc, ih]

theorem maxCumCapped_eq {ls : List Line} {x : Int} {xs : List Int}
    (h : cappedCums ls = x :: xs) : maxCumCapped ls = xs.foldl max x := by
  unfold maxCumCapped
  rw [h]

/-- The first printed line of any in-cap walk is the node's own line. -/
theorem pct_head (idx : Index) (n : String) (ss : Int) (level : Nat) (h : ¬ level > 20) :
    ∃ rest, (print_call_tree idx n ss level).2
      = Line.node (ss + ownSize idx n) (ownSize idx n) level n :: rest := by
  cases hidx : idx n with
  | none =>
    rw [pct_absent idx n ss level h hidx]
    exact ⟨[], by simp [ownSize, hidx]⟩
  | some f =>
    rw [pct_found idx n ss level f h hidx]
    refine ⟨walkLines idx n (ss + f.stacksize) level f.callees, ?_⟩
    simp [ownSize, hidx]

/-- A capped child contributes nothing: its printed cumulative size is beyond
the cap and its returned value is `None`. -/
theorem childOk_of_capped (idx : Index) (c : String) (total : Int) (level : Nat)
    (h : level + 1 > 20) (m : Int) :
    List.foldl max m (cappedCums (print_call_tree idx c total (level + 1)).2)
      = pymax (print_call_tree idx c total (level + 1)).1 m := by
  rw [pct_deep _ _ _ _ h]
  have h' : ¬ (level + 1 ≤ 20) := by omega
  simp [cappedCums, h', pymax]

/-- An in-cap child satisfying the inductive characterization folds to
`pymax` of its returned value. -/
theorem childOk_of_ih (idx : Index) (c : String) (total : Int) (level : Nat)
    (h1 : ¬ level + 1 > 20)
    (hih : (print_call_tree idx c total (level + 1)).1
      = some (maxCumCapped (print_call_tree idx c total (level + 1)).2)) (m : Int) :
    List.foldl max m (cappedCums (print_call_tree idx c total (level + 1)).2)
      = pymax (print_call_tree idx c total (level + 1)).1 m := by
  obtain ⟨rest, hr⟩ := pct_head idx c total (level + 1) h1
  have hle : level + 1 ≤ 20 := by omega
  have hcc : cappedCums (print_call_tree idx c total (level + 1)).2
      = (total + ownSize idx c) :: cappedCums rest := by
    rw [hr]; simp [cappedCums, hle]
  rw [hih, maxCumCapped_eq hcc, hcc]
  simp only [List.foldl_cons, pymax]
  rw [foldl_max_init, max_comm]

theorem walkFst_capped (idx : Index) (n : String) (total : Int) (level : Nat)
    (cs : List String)
    (hch : ∀ c ∈ cs, ¬ c = n → ∀ m : Int,
      List.foldl max m (cappedCums (print_call_tree idx c total (level + 1)).2)
        = pymax (print_call_tree idx c total (level + 1)).1 m) :
    ∀ m : Int, walkFst idx n total level cs m
      = List.foldl max m (cappedCums (walkLines idx n total level cs)) := by
  induction cs with
  | nil => intro m; simp [walkFst, walkLines, cappedCums]
  | cons c cs ih =>
    intro m
    have hch' : ∀ c' ∈ cs, ¬ c' = n → ∀ m : Int,
        List.foldl max m (cappedCums (print_call_tree idx c' total (level + 1)).2)
          = pymax (print_call_tree idx c' total (level + 1)).1 m :=
      fun c' hc' => hch c' (List.mem_cons_of_mem c hc')
    by_cases hc : c = n
    · rw [walkFst_cons_self _ _ _ _ _ _ hc]
      simp only [walkLines, if_pos hc, cappedCums_append]
      simpa [cappedCums] using ih hch' m
    · rw [walkFst_cons_other _ _ _ _ _ _ hc]
      simp only [walkLines, if_neg hc, cappedCums_append]
      rw [List.foldl_append, hch c (List.mem_cons_self c cs) hc m]
      exact ih hch' _

/-- Core step: within the cap, the returned value is the maximum of the
within-cap printed cumulative sizes, provided every possible child already
satisfies the same characterization or is capped. -/
theorem pct_max_step (idx : Index) (n : String) (ss : Int) (level : Nat)
    (h : ¬ level > 20)
    (hch : ∀ c : String, ¬ c = n → ∀ m : Int,
      List.foldl max m (cappedCums (print_call_tree idx c (ss + ownSize idx n) (level + 1)).2)
        = pymax (print_call_tree idx c (ss + ownSize idx n) (level + 1)).1 m) :
    (print_call_tree idx n ss level).1
      = some (maxCumCapped (print_call_tree idx n ss level).2) := by
  have hle : level ≤ 20 := by omega
  cases hidx : idx n with
  | none =>
    rw [pct_absent idx n ss level h hidx]
    simp [maxCumCapped, cappedCums, hle]
  | some f =>
    rw [pct_found idx n ss level f h hidx]
    have hown : ownSize idx n = f.stacksize := by simp [ownSize, hidx]
    have hcc : cappedCums (Line.node (ss + f.stacksize) f.stacksize level n
        :: walkLines idx n (ss + f.stacksize) level f.callees)
        = (ss + f.stacksize)
          :: cappedCums (walkLines idx n (ss + f.stacksize) level f.callees) := by
      simp [cappedCums, hle]
    rw [maxCumCapped_eq hcc]
    have := walkFst_capped idx n (ss + f.stacksize) level f.callees
      (fun c _ hc m => by rw [← hown] at *; exact hch c hc m) (ss + f.stacksize)
    simp only [this]

theorem pct_max_aux : ∀ (k : Nat) (idx : Index) (n : String) (ss : Int) (level : Nat),
    ¬ level > 20 → 20 - level ≤ k →
    (print_call_tree idx n ss level).1
      = some (maxCumCapped (print_call_tree idx n ss level).2) := by
  intro k
  induction k with
  | zero =>
    intro idx n ss level h hk
    have h20 : level = 20 := by omega
    subst h20
    exact pct_max_step idx n ss 20 h
      (fun c _ m => childOk_of_capped idx c _ 20 (by omega) m)
  | succ k ih =>
    intro idx n ss level h hk
    by_cases h20 : level = 20
    · subst h20
      exact pct_max_step idx n ss 20 h
        (fun c _ m => childOk_of_capped idx c _ 20 (by omega) m)
    · have hlt : level < 20 := by omega
      exact pct_max_step idx n ss level h
        (fun c _ m => childOk_of_ih idx c _ level (by omega)
          (ih idx c _ (level + 1) (by omega) (by omega)) m)

/-- Within the cap, `print_call_tree` returns the maximum cumulative stack
size among the printed node lines whose depth is at most 20 (capped nodes
print their line but never contribute to the returned value). -/
theorem pct_max (idx : Index) (n : String) (ss : Int) (level : Nat) (h : ¬ level > 20) :
    (print_call_tree idx n ss level).1
      = some (maxCumCapped (print_call_tree idx n ss level).2) :=
  pct_max_aux 20 idx n ss level h (by omega)

/-! ### When no branch is capped, the walker computes the path maximum -/

theorem noTooDeep_of_sub {ls ls' : List Line} (h : noTooDeep ls = true)
    (hsub : ∀ l ∈ ls', l ∈ ls) : noTooDeep ls' = true := by
  simp only [noTooDeep, List.all_eq_true] at *
  exact fun l hl => h l (hsub l hl)

theorem noTooDeep_false_of_mem {ls : List Line} {lv : Nat}
    (h : Line.tooDeep lv ∈ ls) : ¬ noTooDeep ls = true := by
  simp only [noTooDeep, List.all_eq_true]
  intro hall
  simpa using hall _ h

theorem level_le_of_noTooDeep {idx : Index} {n : String} {ss : Int} {level : Nat}
    (h : noTooDeep (print_call_tree idx n ss level).2 = true) : ¬ level > 20 := by
  intro hgt
  rw [pct_deep _ _ _ _ hgt] at h
  exact noTooDeep_false_of_mem (List.mem_cons_of_mem _ (List.mem_cons_self _ _)) h

theorem specGoodPath_single (idx : Index) (a : String) : specGoodPath idx [a] = true := rfl

theorem specGoodPath_cons_iff (idx : Index) (a b : String) (q : List String) :
    specGoodPath idx (a :: b :: q) = true
      ↔ b ∈ calleesOf idx a ∧ ¬ b = a ∧ specGoodPath idx (b :: q) = true := by
  simp only [specGoodPath, Bool.and_eq_true, List.contains, List.elem_iff,
    Bool.not_eq_true', beq_eq_false_iff_ne, ne_eq, and_assoc]

theorem specPathCum_cons (idx : Index) (a : String) (p : List String) :
    specPathCum idx (a :: p) = ownSize idx a + specPathCum idx p := by
  simp [specPathCum]

theorem pct_paths_step (idx : Index) (n : String) (ss : Int) (level : Nat)
    (h : ¬ level > 20)
    (hnd : noTooDeep (print_call_tree idx n ss level).2 = true)
    (hch : ∀ c, ¬ c = n →
      noTooDeep (print_call_tree idx c (ss + ownSize idx n) (level + 1)).2 = true →
      PathsOk idx c (ss + ownSize idx n) (level + 1)) :
    PathsOk idx n ss level := by
  cases hidx : idx n with
  | none =>
    have hown : ownSize idx n = 0 := by simp [ownSize, hidx]
    refine ⟨ss, ?_, ?_, ?_⟩
    · rw [pct_absent idx n ss level h hidx]
    · intro p hp hgood
      match p with
      | [] => simp at hp
      | [a] =>
        have ha : a = n := by simpa using hp
        subst ha
        simp [specPathCum, hown]
      | a :: b :: q =>
        have ha : a = n := by simpa using hp
        subst ha
        have hb := (specGoodPath_cons_iff idx a b q).mp hgood
        rw [show calleesOf idx a = [] from by simp [calleesOf, hidx]] at hb
        exact absurd hb.1 (List.not_mem_nil b)
    · exact ⟨[n], rfl, specGoodPath_single idx n, by simp [specPathCum, hown]⟩
  | some f =>
    have hown : ownSize idx n = f.stacksize := by simp [ownSize, hidx]
    have hcall : calleesOf idx n = f.callees := by simp [calleesOf, hidx]
    have hlines : (print_call_tree idx n ss level).2
        = Line.node (ss + f.stacksize) f.stacksize level n
          :: walkLines idx n (ss + f.stacksize) level f.callees := by
      rw [pct_found idx n ss level f h hidx]
    have hchild : ∀ c ∈ f.callees, ¬ c = n →
        PathsOk idx c (ss + f.stacksize) (level + 1) := by
      intro c hc hne
      have hndc : noTooDeep (print_call_tree idx c (ss + f.stacksize) (level + 1)).2 = true := by
        refine noTooDeep_of_sub hnd ?_
        intro l hl
        rw [hlines]
        exact List.mem_cons_of_mem _ (walkLines_mem_child idx n _ level f.callees hc hne hl)
      have := hch c hne (by rw [hown]; exact hndc)
      rw [hown] at this
      exact this
    refine ⟨walkFst idx n (ss + f.stacksize) level f.callees (ss + f.stacksize), ?_, ?_, ?_⟩
    · rw [pct_found idx n ss level f h hidx]
    · intro p hp hgood
      match p with
      | [] => simp at hp
      | [a] =>
        have ha : a = n := by simpa using hp
        subst ha
        have : ss + specPathCum idx [a] = ss + f.stacksize := by
          simp [specPathCum, hown]
        rw [this]
        exact le_walkFst idx a _ level f.callees _
      | a :: c :: q =>
        have ha : a = n := by simpa using hp
        subst ha
        obtain ⟨hmem, hne, hgq⟩ := (specGoodPath_cons_iff idx a c q).mp hgood
        rw [hcall] at hmem
        obtain ⟨mc, hmc, hUBc, _⟩ := hchild c hmem hne
        have h1 : (ss + f.stacksize) + specPathCum idx (c :: q) ≤ mc :=
          hUBc (c :: q) rfl hgq
        have h2 : mc ≤ walkFst idx a (ss + f.stacksize) level f.callees (ss + f.stacksize) :=
          walkFst_child_le idx a _ level f.callees _ mc c hmem hne hmc
        have h3 : ss + specPathCum idx (a :: c :: q)
            = (ss + f.stacksize) + specPathCum idx (c :: q) := by
          rw [specPathCum_cons, hown]
          omega
        omega
    · rcases walkFst_attained idx n (ss + f.stacksize) level f.callees (ss + f.stacksize)
        with heq | ⟨c, hcmem, hne, hsome⟩
      · refine ⟨[n], rfl, specGoodPath_single idx n, ?_⟩
        rw [heq]
        simp [specPathCum, hown]
      · obtain ⟨mc, hmc, _, q, hq1, hq2, hq3⟩ := hchild c hcmem hne
        have hmceq : mc = walkFst idx n (ss + f.stacksize) level f.callees (ss + f.stacksize) := by
          rw [hmc] at hsome
          exact Option.some_injective _ hsome
        match q, hq1 with
        | c' :: q', hq1 =>
          have hc' : c' = c := by simpa using hq1
          subst hc'
          refine ⟨n :: c' :: q', rfl, ?_, ?_⟩
          · exact (specGoodPath_cons_iff idx n c' q').mpr ⟨by rw [hcall]; exact hcmem, hne, hq2⟩
          · rw [specPathCum_cons, hown]
            rw [specPathCum_cons] at hq3 ⊢
            omega

theorem pct_paths_aux : ∀ (k : Nat) (idx : Index) (n : String) (ss : Int) (level : Nat),
    20 - level ≤ k →
    noTooDeep (print_call_tree idx n ss level).2 = true →
    PathsOk idx n ss level := by
  intro k
  induction k with
  | zero =>
    intro idx n ss level hk hnd
    have h := level_le_of_noTooDeep hnd
    refine pct_paths_step idx n ss level h hnd (fun c _ hnd' => ?_)
    exfalso
    have hcap : level + 1 > 20 := by omega
    rw [pct_deep _ _ _ _ hcap] at hnd'
    exact noTooDeep_false_of_mem (List.mem_cons_of_mem _ (List.mem_cons_self _ _)) hnd'
  | succ k ih =>
    intro idx n ss level hk hnd
    have h := level_le_of_noTooDeep hnd
    by_cases h20 : level ≥ 20
    · refine pct_paths_step idx n ss level h hnd (fun c _ hnd' => ?_)
      exfalso
      have hcap : level + 1 > 20 := by omega
      rw [pct_deep _ _ _ _ hcap] at hnd'
      exact noTooDeep_false_of_mem (List.mem_cons_of_mem _ (List.mem_cons_self _ _)) hnd'
    · exact pct_paths_step idx n ss level h hnd
        (fun c _ hnd' => ih idx c _ (level + 1) (by omega) hnd')

/-- When the walk never prints the too-deep marker, the returned value is the
maximum over good downward paths of the ancestor total plus the path sum. -/
theorem pct_paths (idx : Index) (n : String) (ss : Int) (level : Nat)
    (hnd : noTooDeep (print_call_tree idx n ss level).2 = true) :
    PathsOk idx n ss level :=
  pct_paths_aux (20 - level) idx n ss level (le_refl _) hnd

/-! ### Independence from the callee enumeration order -/

theorem walkFst_eq_of_children (idx idx' : Index) (n : String) (total : Int) (level : Nat)
    (cs : List String)
    (h : ∀ c, ¬ c = n →
      (print_call_tree idx c total (level + 1)).1 = (print_call_tree idx' c total (level + 1)).1) :
    ∀ m : Int, walkFst idx n total level cs m = walkFst idx' n total level cs m := by
  induction cs with
  | nil => intro m; rfl
  | cons c cs ih =>
    intro m
    by_cases hc : c = n
    · rw [walkFst_cons_self _ _ _ _ _ _ hc, walkFst_cons_self _ _ _ _ _ _ hc]
      exact ih m
    · rw [walkFst_cons_other _ _ _ _ _ _ hc, walkFst_cons_other _ _ _ _ _ _ hc, h c hc]
      exact ih _

theorem walkFst_perm (idx : Index) (n : String) (total : Int) (level : Nat)
    {cs cs' : List String} (hp : cs.Perm cs') (m : Int) :
    walkFst idx n total level cs m = walkFst idx n total level cs' m := by
  refine foldl_perm_swap ?_ hp m
  intro m a b
  dsimp only
  by_cases ha : a = n
  · by_cases hb : b = n <;> simp [ha, hb]
  · by_cases hb : b = n
    · simp [ha, hb]
    · simp only [if_neg ha, if_neg hb]
      exact pymax_swap _ _ m

theorem pct_fst_equiv_step (idx idx' : Index) (n : String) (ss : Int) (level : Nat)
    (heq : IndexEquiv idx idx')
    (hch : ∀ (c : String) (total : Int), ¬ c = n →
      (print_call_tree idx c total (level + 1)).1 = (print_call_tree idx' c total (level + 1)).1) :
    (print_call_tree idx n ss level).1 = (print_call_tree idx' n ss level).1 := by
  by_cases h : level > 20
  · rw [pct_deep idx n ss level h, pct_deep idx' n ss level h]
  · rcases heq n with ⟨h1, h2⟩ | ⟨f, f', h1, h2, h3, h4⟩
    · rw [pct_absent idx n ss level h h1, pct_absent idx' n ss level h h2]
    · rw [pct_found idx n ss level f h h1, pct_found idx' n ss level f' h h2]
      simp only
      rw [← h3]
      rw [walkFst_eq_of_children idx idx' n (ss + f.stacksize) level f.callees
        (fun c hc => hch c _ hc)]
      rw [walkFst_perm idx' n (ss + f.stacksize) level h4]

theorem pct_fst_equiv_aux : ∀ (k : Nat) (idx idx' : Index), IndexEquiv idx idx' →
    ∀ (n : String) (ss : Int) (level : Nat), 20 - level ≤ k →
    (print_call_tree idx n ss level).1 = (print_call_tree idx' n ss level).1 := by
  intro k
  induction k with
  | zero =>
    intro idx idx' heq n ss level hk
    refine pct_fst_equiv_step idx idx' n ss level heq (fun c total _ => ?_)
    have hcap : level + 1 > 20 := by omega
    rw [pct_deep idx c total (level + 1) hcap, pct_deep idx' c total (level + 1) hcap]
  | succ k ih =>
    intro idx idx' heq n ss level hk
    by_cases h20 : level ≥ 20
    · refine pct_fst_equiv_step idx idx' n ss level heq (fun c total _ => ?_)
      have hcap : level + 1 > 20 := by omega
      rw [pct_deep idx c total (level + 1) hcap, pct_deep idx' c total (level + 1) hcap]
    · exact pct_fst_equiv_step idx idx' n ss level heq
        (fun c total _ => ih idx idx' heq c total (level + 1) (by omega))

theorem pct_fst_equiv (idx idx' : Index) (heq : IndexEquiv idx idx')
    (n : String) (ss : Int) (level : Nat) :
    (print_call_tree idx n ss level).1 = (print_call_tree idx' n ss level).1 :=
  pct_fst_equiv_aux 20 idx idx' heq n ss level (by omega)

/-! ### Membership in the collected callee set -/

theorem setAdd_mem (s : List String) (x : Option String) (c : String) :
    c ∈ setAdd s x ↔ c ∈ s ∨ x = some c := by
  cases x with
  | none => simp [setAdd]
  | some a =>
    by_cases h : a ∈ s
    · simp only [setAdd, if_pos h, Option.some.injEq]
      constructor
      · exact Or.inl
      · rintro (hc | hc)
        · exact hc
        · exact hc ▸ h
    · simp only [setAdd, if_neg h, List.mem_append, List.mem_singleton, Option.some.injEq]
      constructor
      · rintro (hc | hc)
        · exact Or.inl hc
        · exact Or.inr hc.symm
      · rintro (hc | hc)
        · exact Or.inl hc
        · exact Or.inr hc.symm

theorem processBody_mem : ∀ (body : List String) (s cs : List String),
    processBody s body = .ok cs →
    ∀ c, c ∈ cs ↔ (c ∈ s
      ∨ (∃ b ∈ body.dropLast, analyse_call b false = .ok (some c))
      ∨ (∃ b, body.getLast? = some b ∧ analyse_call b true = .ok (some c))) := by
  intro body
  induction body with
  | nil => intro s cs h; exact absurd h (by simp [processBody])
  | cons b tail ih =>
    cases tail with
    | nil =>
      intro s cs h c
      rcases ha : analyse_call b true with e | x
      · rw [processBody, ha] at h; exact absurd h (by simp)
      · rw [processBody, ha] at h
        have hcs : cs = setAdd s x := by
          have := h
          simp only [Except.ok.injEq] at this
          exact this.symm
        subst hcs
        rw [setAdd_mem]
        simp only [List.dropLast_single, List.not_mem_nil, false_and, exists_false,
          List.getLast?_singleton, Option.some.injEq, exists_eq_left', false_or]
        constructor
        · rintro (hc | hc)
          · exact Or.inl hc
          · exact Or.inr (by rw [ha, hc])
        · rintro (hc | hc)
          · exact Or.inl hc
          · refine Or.inr ?_
            rw [ha] at hc
            simpa using hc
    | cons b2 rest =>
      intro s cs h c
      rcases ha : analyse_call b false with e | x
      · rw [processBody, ha] at h; exact absurd h (by simp)
      · rw [processBody, ha] at h
        rw [ih (setAdd s x) cs h c, setAdd_mem]
        have hdrop : (b :: b2 :: rest).dropLast = b :: (b2 :: rest).dropLast := by
          simp
        have hlast : (b :: b2 :: rest).getLast? = (b2 :: rest).getLast? := by
          simp [List.getLast?_cons_cons]
        rw [hdrop, hlast]
        constructor
        · rintro ((hc | hc) | hmid | hlastc)
          · exact Or.inl hc
          · exact Or.inr (Or.inl ⟨b, List.mem_cons_self _ _, by rw [ha, hc]⟩)
          · obtain ⟨b', hb', hb'c⟩ := hmid
            exact Or.inr (Or.inl ⟨b', List.mem_cons_of_mem _ hb', hb'c⟩)
          · exact Or.inr (Or.inr hlastc)
        · rintro (hc | hmid | hlastc)
          · exact Or.inl (Or.inl hc)
          · obtain ⟨b', hb', hb'c⟩ := hmid
            rcases List.mem_cons.mp hb' with hb | hb
            · subst hb
              rw [ha] at hb'c
              exact Or.inl (Or.inr (by simpa using hb'c))
            · exact Or.inr (Or.inl ⟨b', hb, hb'c⟩)
          · exact Or.inr (Or.inr hlastc)

/-! ### Stack-frame estimator lemmas -/

theorem count_pushes_loop_pushes : ∀ (pushes : List String),
    (∀ b ∈ pushes, opcOf b = some "push") →
    ∀ (c : Int) (nr : Nat) (rest : List String),
    count_pushes_loop c false nr (pushes ++ rest)
      = count_pushes_loop (c + pushes.length) false nr rest := by
  intro pushes
  induction pushes with
  | nil => intro _ c nr rest; simp
  | cons p ps ih =>
    intro hall c nr rest
    have hp := hall p (List.mem_cons_self _ _)
    rcases hm : instrMatch (pyStrip p) with _ | m
    · rw [opcOf, hm] at hp; exact absurd hp (by simp)
    · rw [opcOf, hm] at hp
      have hopc : m.opc = "push" := by simpa using hp
      rw [List.cons_append]
      rw [show count_pushes_loop c false nr (p :: (ps ++ rest))
          = count_pushes_loop (c + 1) false nr (ps ++ rest) from by
        simp [count_pushes_loop, hm, hopc]]
      rw [ih (fun b hb => hall b (List.mem_cons_of_mem _ hb)) (c + 1) nr rest]
      congr 1
      simp only [List.length_cons]
      push_cast
      ring

/-- Once the scanner sits right before an `sbiw`/`subi` on `r28,` with the
push run closed and both `in`s seen, the immediate is added and scanning
stops: nothing after that line can change the result. -/
theorem count_pushes_break (sub r v1 : String) (tl : List String) (V : Int)
    (h3 : opcOf sub = some "sbiw" ∨ opcOf sub = some "subi")
    (h4 : restOfLine sub = some r)
    (h5 : pySplit r = "r28," :: v1 :: tl)
    (h6 : pyIntHex v1 = some V)
    (c : Int) (rest : List String) :
    count_pushes_loop c true 2 (sub :: rest) = .ok (c + V) := by
  rcases hm : instrMatch (pyStrip sub) with _ | m
  · rw [restOfLine, hm] at h4; exact absurd h4 (by simp)
  · have hopc : m.opc = "sbiw" ∨ m.opc = "subi" := by
      rcases h3 with h3 | h3 <;> rw [opcOf, hm] at h3 <;> simp at h3
      · exact Or.inl h3
      · exact Or.inr h3
    have hrest : m.rest = some r := by
      rw [restOfLine, hm] at h4
      simpa using h4
    rcases hopc with hop | hop <;>
      simp [count_pushes_loop, hm, hop, hrest, h5, h6]

theorem count_pushes_tail (in1 in2 sub r v1 : String) (tl : List String) (V : Int)
    (h1 : opcOf in1 = some "in") (h2 : opcOf in2 = some "in")
    (h3 : opcOf sub = some "sbiw" ∨ opcOf sub = some "subi")
    (h4 : restOfLine sub = some r)
    (h5 : pySplit r = "r28," :: v1 :: tl)
    (h6 : pyIntHex v1 = some V)
    (c : Int) :
    count_pushes_loop c false 0 [in1, in2, sub] = .ok (c + V) := by
  rcases hm1 : instrMatch (pyStrip in1) with _ | m1
  · rw [opcOf, hm1] at h1; exact absurd h1 (by simp)
  · have hopc1 : m1.opc = "in" := by rw [opcOf, hm1] at h1; simpa using h1
    rcases hm2 : instrMatch (pyStrip in2) with _ | m2
    · rw [opcOf, hm2] at h2; exact absurd h2 (by simp)
    · have hopc2 : m2.opc = "in" := by rw [opcOf, hm2] at h2; simpa using h2
      rw [show count_pushes_loop c false 0 [in1, in2, sub]
          = count_pushes_loop c true 1 [in2, sub] from by
        simp [count_pushes_loop, hm1, hopc1]]
      rw [show count_pushes_loop c true 1 [in2, sub]
          = count_pushes_loop c true 2 [sub] from by
        simp [count_pushes_loop, hm2, hopc2]]
      exact count_pushes_break sub r v1 tl V h3 h4 h5 h6 c []

theorem count_pushes_loop_none : ∀ (body : List String) (c : Int) (done : Bool) (nr : Nat),
    (∀ b ∈ body, ∀ m, instrMatch (pyStrip b) = some m →
      ¬ m.opc = "push" ∧ ¬ m.opc = "sbiw" ∧ ¬ m.opc = "subi") →
    count_pushes_loop c done nr body = .ok c := by
  intro body
  induction body with
  | nil => intro c done nr _; rfl
  | cons b rest ih =>
    intro c done nr hall
    have htail := fun b' hb' => hall b' (List.mem_cons_of_mem _ hb')
    rcases hm : instrMatch (pyStrip b) with _ | m
    · rw [show count_pushes_loop c done nr (b :: rest)
          = count_pushes_loop c done nr rest from by simp [count_pushes_loop, hm]]
      exact ih c done nr htail
    · obtain ⟨hpush, hsbiw, hsubi⟩ := hall b (List.mem_cons_self _ _) m hm
      by_cases hin : nr < 2 ∧ m.opc = "in"
      · rw [show count_pushes_loop c done nr (b :: rest)
            = count_pushes_loop c true (nr + 1) rest from by
          simp [count_pushes_loop, hm, hpush, hin]]
        exact ih c true (nr + 1) htail
      · rw [show count_pushes_loop c done nr (b :: rest)
            = count_pushes_loop c true nr rest from by
          simp [count_pushes_loop, hm, hpush, hsbiw, hsubi, hin]]
        exact ih c true nr htail

/-- A push line is a no-op for the scan once `done_pushes` would be true: the
scanner state is unchanged and the line contributes nothing. -/
theorem count_pushes_skip_late_push :
    ∀ (pre : List String) (c : Int) (done : Bool) (nr : Nat) (pushline : String),
    opcOf pushline = some "push" →
    (done = true ∨ ∃ b ∈ pre, ∃ m, instrMatch (pyStrip b) = some m ∧ ¬ m.opc = "push") →
    ∀ (suf : List String),
    count_pushes_loop c done nr (pre ++ pushline :: suf)
      = count_pushes_loop c done nr (pre ++ suf) := by
  intro pre
  induction pre with
  | nil =>
    intro c done nr pushline hp hpre suf
    have hdone : done = true := by
      rcases hpre with h | ⟨b, hb, _⟩
      · exact h
      · exact absurd hb (List.not_mem_nil b)
    subst hdone
    rcases hm : instrMatch (pyStrip pushline) with _ | m
    · rw [opcOf, hm] at hp; exact absurd hp (by simp)
    · have hopc : m.opc = "push" := by rw [opcOf, hm] at hp; simpa using hp
      simp [count_pushes_loop, hm, hopc]
  | cons b pre ih =>
    intro c done nr pushline hp hpre suf
    simp only [List.cons_append]
    rcases hm : instrMatch (pyStrip b) with _ | m
    · rw [show count_pushes_loop c done nr (b :: (pre ++ pushline :: suf))
          = count_pushes_loop c done nr (pre ++ pushline :: suf) from by
        simp [count_pushes_loop, hm]]
      rw [show count_pushes_loop c done nr (b :: (pre ++ suf))
          = count_pushes_loop c done nr (pre ++ suf) from by
        simp [count_pushes_loop, hm]]
      refine ih c done nr pushline hp ?_ suf
      rcases hpre with h | ⟨b', hb', m', hm', hm'p⟩
      · exact Or.inl h
      · rcases List.mem_cons.mp hb' with hb | hb
        · subst hb; rw [hm] at hm'; exact absurd hm' (by simp)
        · exact Or.inr ⟨b', hb, m', hm', hm'p⟩
    · by_cases hc1 : done = false ∧ m.opc = "push"
      · obtain ⟨hd, hpb⟩ := hc1
        subst hd
        rw [show count_pushes_loop c false nr (b :: (pre ++ pushline :: suf))
            = count_pushes_loop (c + 1) false nr (pre ++ pushline :: suf) from by
          simp [count_pushes_loop, hm, hpb]]
        rw [show count_pushes_loop c false nr (b :: (pre ++ suf))
            = count_pushes_loop (c + 1) false nr (pre ++ suf) from by
          simp [count_pushes_loop, hm, hpb]]
        refine ih (c + 1) false nr pushline hp ?_ suf
        rcases hpre with h | ⟨b', hb', m', hm', hm'p⟩
        · exact absurd h (by simp)
        · rcases List.mem_cons.mp hb' with hb | hb
          · subst hb
            rw [hm] at hm'
            have hmm : m = m' := by simpa using hm'
            subst hmm
            exact absurd hpb hm'p
          · exact Or.inr ⟨b', hb, m', hm', hm'p⟩
      · by_cases hc2 : nr < 2 ∧ m.opc = "in"
        · rw [show count_pushes_loop c done nr (b :: (pre ++ pushline :: suf))
              = count_pushes_loop c true (nr + 1) (pre ++ pushline :: suf) from by
            simp [count_pushes_loop, hm, hc1, hc2]]
          rw [show count_pushes_loop c done nr (b :: (pre ++ suf))
              = count_pushes_loop c true (nr + 1) (pre ++ suf) from by
            simp [count_pushes_loop, hm, hc1, hc2]]
          exact ih c true (nr + 1) pushline hp (Or.inl rfl) suf
        · by_cases hc3 : nr = 2 ∧ (m.opc = "sbiw" ∨ m.opc = "subi")
          · obtain ⟨hnr, hor⟩ := hc3
            subst hnr
            have hih := ih c true 2 pushline hp (Or.inl rfl) suf
            rcases hor with hop | hop <;>
            · simp only [count_pushes_loop, hm, hop, hc1]
              cases m.rest with
              | none => simp
              | some r =>
                cases hsp : pySplit r with
                | nil => simp [hsp]
                | cons v0 vtail =>
                  by_cases hv0 : v0 = "r28,"
                  · subst hv0
                    cases vtail with
                    | nil => simp [hsp]
                    | cons v1 vtl => cases pyIntHex v1 <;> simp [hsp]
                  · simp [hsp, hv0, hih]
          · rw [show count_pushes_loop c done nr (b :: (pre ++ pushline :: suf))
                = count_pushes_loop c true nr (pre ++ pushline :: suf) from by
              simp [count_pushes_loop, hm, hc1, hc2, hc3]]
            rw [show count_pushes_loop c done nr (b :: (pre ++ suf))
                = count_pushes_loop c true nr (pre ++ suf) from by
              simp [count_pushes_loop, hm, hc1, hc2, hc3]]
            exact ih c true nr pushline hp (Or.inl rfl) suf

/-! ### Claim theorems -/

/-- C3: the Stack-Frame Estimator satisfies the three canonical-shape
postconditions: a body of exactly N leading push instruction lines and
nothing else yields N; P leading pushes followed by two `in` instructions
and an `sbiw`/`subi` whose first operand is `r28,` with hex immediate V
yields P + V; a body whose instructions exhibit neither idiom yields 0. -/
theorem count_pushes_canonical_shapes :
    (∀ body : List String, (∀ b ∈ body, opcOf b = some "push") →
      count_pushes body = .ok (body.length : Int))
  ∧ (∀ (pushes : List String) (in1 in2 sub r v1 : String) (tl : List String) (V : Int),
      (∀ b ∈ pushes, opcOf b = some "push") →
      opcOf in1 = some "in" → opcOf in2 = some "in" →
      (opcOf sub = some "sbiw" ∨ opcOf sub = some "subi") →
      restOfLine sub = some r →
      pySplit r = "r28," :: v1 :: tl →
      pyIntHex v1 = some V →
      count_pushes (pushes ++ [in1, in2, sub]) = .ok ((pushes.length : Int) + V))
  ∧ (∀ body : List String,
      (∀ b ∈ body, ∀ m, instrMatch (pyStrip b) = some m →
        ¬ m.opc = "push" ∧ ¬ m.opc = "sbiw" ∧ ¬ m.opc = "subi") →
      count_pushes body = .ok 0) := by
  refine ⟨?_, ?_, ?_⟩
  · intro body hall
    have h := count_pushes_loop_pushes body hall 0 0 []
    rw [List.append_nil] at h
    rw [count_pushes, h]
    simp [count_pushes_loop]
  · intro pushes in1 in2 sub r v1 tl V hall h1 h2 h3 h4 h5 h6
    rw [count_pushes, count_pushes_loop_pushes pushes hall 0 0 [in1, in2, sub]]
    rw [count_pushes_tail in1 in2 sub r v1 tl V h1 h2 h3 h4 h5 h6]
    congr 1
    omega
  · intro body hall
    exact count_pushes_loop_none body 0 false 0 hall

/-- Witness for C3: three pushes, `in r28`/`in r29`, `sbiw r28, 0x0e` give
3 + 14 = 17 (the spec's worked example). -/
theorem count_pushes_canonical_shapes_witness :
    count_pushes c3Body = .ok 17 := by
  have h := count_pushes_canonical_shapes.2.1
    ["100: 0f 93 \tpush\tr0", "102: 1f 93 \tpush\tr1", "104: cf 93 \tpush\tr28"]
    "106: cd b7 \tin\tr28, 0x3d\t; 61" "108: de b7 \tin\tr29, 0x3e\t; 62"
    "10a: 2e 97 \tsbiw\tr28, 0x0e\t; 14" "r28, 0x0e\t; 14" "0x0e" [";", "14"] 14
    (by decide) (by decide) (by decide) (by decide) (by decide) (by decide) (by decide)
  simpa [c3Body] using h

/-- C4 amended: (1) a push instruction appearing after the first non-push
instruction is never counted (removing it does not change the result), and
(2) once an `sbiw`/`subi` with first operand `r28,` is processed while the
push run is closed and exactly two `in`s have been seen, its immediate is
added and scanning stops — nothing later in the body can change the result.
(The claim's stronger reading — that any break in the expected sequence
stops the scan — is refuted by `count_pushes_late_idiom_counterexample`:
the scanner keeps walking and may still find the `in`/`in`/`sbiw` idiom
later.) -/
theorem count_pushes_scan_stop :
    (∀ (pre : List String) (pushline : String) (suf : List String),
      opcOf pushline = some "push" →
      (∃ b ∈ pre, ∃ m, instrMatch (pyStrip b) = some m ∧ ¬ m.opc = "push") →
      count_pushes (pre ++ pushline :: suf) = count_pushes (pre ++ suf))
  ∧ (∀ (sub r v1 : String) (tl : List String) (V : Int) (c : Int) (rest : List String),
      (opcOf sub = some "sbiw" ∨ opcOf sub = some "subi") →
      restOfLine sub = some r →
      pySplit r = "r28," :: v1 :: tl →
      pyIntHex v1 = some V →
      count_pushes_loop c true 2 (sub :: rest) = .ok (c + V)) := by
  refine ⟨?_, ?_⟩
  · intro pre pushline suf hp hpre
    exact count_pushes_skip_late_push pre 0 false 0 pushline hp (Or.inr hpre) suf
  · intro sub r v1 tl V c rest h3 h4 h5 h6
    exact count_pushes_break sub r v1 tl V h3 h4 h5 h6 c rest

/-- Witness for the amended C4: a push after a `movw` is not counted, and a
well-formed `sbiw` line ends the scan no matter what follows. -/
theorem count_pushes_scan_stop_witness :
    count_pushes ["574e: cd 01 \tmovw\tr24, r26", "5750: 0f 93 \tpush\tr0"]
        = count_pushes ["574e: cd 01 \tmovw\tr24, r26"]
      ∧ count_pushes_loop 3 true 2
          ["10a: 2e 97 \tsbiw\tr28, 0x0e\t; 14", "10c: 0f 93 \tpush\tr0"] = .ok (3 + 14) :=
  ⟨count_pushes_scan_stop.1 ["574e: cd 01 \tmovw\tr24, r26"] "5750: 0f 93 \tpush\tr0" []
      (by decide) ⟨"574e: cd 01 \tmovw\tr24, r26", by decide, ⟨"movw", some "r24, r26"⟩,
        by decide, by decide⟩,
   count_pushes_scan_stop.2 "10a: 2e 97 \tsbiw\tr28, 0x0e\t; 14" "r28, 0x0e\t; 14" "0x0e"
      [";", "14"] 14 3 ["10c: 0f 93 \tpush\tr0"] (by decide) (by decide) (by decide) (by decide)⟩

/-- Counterexample to C4 as stated: after one push, a `movw` breaks the
expected push / two-`in` / subtract-immediate sequence, so the claim says
the accumulated count (1) is the result; the scanner keeps going, still
finds `in`/`in`/`sbiw r28, 0x0e` later, and returns 1 + 14 = 15. -/
theorem count_pushes_late_idiom_counterexample :
    count_pushes c4Body = .ok 15 ∧ ¬ count_pushes c4Body = .ok 1 := by decide

/-- C5: a callee is recorded exactly when the line parses as an instruction
whose opcode is `call`/`rcall` (any position) or `jmp`/`rjmp` on the last
line, and its remainder carries a resolved `; <address> <name>` comment;
`icall` never records a callee; the collected callee set contains exactly
the names so extracted from the body. -/
theorem callee_extraction_iff :
    (∀ (line : String) (is_last : Bool) (c : String),
      analyse_call line is_last = .ok (some c)
        ↔ ∃ m, instrMatch (pyStrip line) = some m
            ∧ (m.opc = "call" ∨ m.opc = "rcall"
                ∨ (is_last = true ∧ (m.opc = "jmp" ∨ m.opc = "rjmp")))
            ∧ ∃ r, m.rest = some r ∧ restMatch r = some c)
  ∧ (∀ (line : String) (is_last : Bool) (m : Instr),
      instrMatch (pyStrip line) = some m → m.opc = "icall" →
      analyse_call line is_last = .ok none)
  ∧ (∀ (body : List String) (cs : List String), processBody [] body = .ok cs →
      ∀ c, c ∈ cs
        ↔ ((∃ b ∈ body.dropLast, analyse_call b false = .ok (some c))
          ∨ (∃ b, body.getLast? = some b ∧ analyse_call b true = .ok (some c)))) := by
  refine ⟨?_, ?_, ?_⟩
  · intro line is_last c
    rcases hm : instrMatch (pyStrip line) with _ | m
    · simp [analyse_call, hm]
    · by_cases hcond : m.opc = "call" ∨ m.opc = "rcall"
          ∨ (is_last = true ∧ (m.opc = "jmp" ∨ m.opc = "rjmp"))
      · rcases hr : m.rest with _ | r
        · simp [analyse_call, hm, hcond, hr]
        · simp [analyse_call, hm, hcond, hr]
      · by_cases hic : m.opc = "icall" <;> simp [analyse_call, hm, hcond, hic]
  · intro line is_last m hm hop
    have hcond : ¬ (m.opc = "call" ∨ m.opc = "rcall"
        ∨ (is_last = true ∧ (m.opc = "jmp" ∨ m.opc = "rjmp"))) := by
      rw [hop]; rintro (h | h | ⟨_, h | h⟩) <;> simp at h
    simp [analyse_call, hm, hcond, hop]
  · intro body cs h c
    rw [processBody_mem body [] cs h c]
    simp

/-- Witness for C5: on a body with a resolved `call <foo>`, a resolved
`rcall <bar>` and a final `ret`, membership in the collected set is exactly
per-line extraction. -/
theorem callee_extraction_iff_witness :
    "foo" ∈ (["foo", "bar"] : List String)
      ↔ ((∃ b ∈ c5Body.dropLast, analyse_call b false = .ok (some "foo"))
        ∨ (∃ b, c5Body.getLast? = some b ∧ analyse_call b true = .ok (some "foo"))) :=
  callee_extraction_iff.2.2 c5Body ["foo", "bar"] (by decide) "foo"

/-- C6 amended: a call-edge-candidate line whose remainder is present but
does not match the resolved-comment pattern adds no callee, silently; but a
candidate whose remainder is entirely absent makes `rest_pat.match(None)`
raise `TypeError` (refuting the claim's "including a remainder that is
entirely absent" — see `missing_operand_raises_counterexample`). -/
theorem unresolved_comment_silent :
    (∀ (line : String) (is_last : Bool) (m : Instr) (r : String),
      instrMatch (pyStrip line) = some m →
      (m.opc = "call" ∨ m.opc = "rcall"
        ∨ (is_last = true ∧ (m.opc = "jmp" ∨ m.opc = "rjmp"))) →
      m.rest = some r → restMatch r = none →
      analyse_call line is_last = .ok none)
  ∧ (∀ (line : String) (is_last : Bool) (m : Instr),
      instrMatch (pyStrip line) = some m →
      (m.opc = "call" ∨ m.opc = "rcall"
        ∨ (is_last = true ∧ (m.opc = "jmp" ∨ m.opc = "rjmp"))) →
      m.rest = none →
      analyse_call line is_last = .error "TypeError: expected string or bytes-like object") := by
  refine ⟨?_, ?_⟩
  · intro line is_last m r hm hcond hr hrm
    simp [analyse_call, hm, hcond, hr, hrm]
  · intro line is_last m hm hcond hr
    simp [analyse_call, hm, hcond, hr]

/-- Witness for the amended C6: an `rcall` whose operand carries no resolved
comment adds nothing and does not raise. -/
theorem unresolved_comment_silent_witness :
    analyse_call " 9f8: 20 df \trcall\t.-448" false = .ok none :=
  unresolved_comment_silent.1 " 9f8: 20 df \trcall\t.-448" false
    ⟨"rcall", some ".-448"⟩ ".-448" (by decide) (Or.inr (Or.inl rfl)) rfl (by decide)

/-- Counterexample to C6 as stated: a `call` with no text after the opcode
has remainder `None`, and `rest_pat.match(None)` raises `TypeError` instead
of proceeding silently. -/
theorem missing_operand_raises_counterexample :
    analyse_call "574c: cd b7 \tcall" false
      = .error "TypeError: expected string or bytes-like object" := by decide

/-- C7 amended: every block whose construction completes yields the
described record — a matched `<hex-address> <<name>>:` header gives that
name and address with the remaining lines as body, an unmatched first line
gives the synthetic name `"unknown"`, address 0, and keeps the first line in
the body.  (Construction does not complete on every block: a header-only
block has an empty body and `self._body[-1]` raises `IndexError` — see
`header_only_block_counterexample`.) -/
theorem symbol_block_fields :
    ∀ (lines : List String) (f : Function), Function.init lines = .ok f →
      ∃ l0 rest, lines = l0 :: rest
        ∧ ((∃ a nm, headerMatch l0 = some (a, nm)
              ∧ f.name = nm ∧ f.addr = a ∧ f.body = rest)
          ∨ (headerMatch l0 = none
              ∧ f.name = "unknown" ∧ f.addr = 0 ∧ f.body = l0 :: rest)) := by
  intro lines f h
  cases lines with
  | nil => exact absurd h (by simp [Function.init])
  | cons l0 rest =>
    refine ⟨l0, rest, rfl, ?_⟩
    cases hdr : headerMatch l0 with
    | some p =>
      obtain ⟨a, nm⟩ := p
      left
      rw [Function.init, hdr] at h
      rcases hpb : processBody [] rest with e | cs
      · rw [hpb] at h; exact absurd h (by simp)
      · rw [hpb] at h
        rcases hcp : count_pushes rest with e | ss
        · rw [hcp] at h; exact absurd h (by simp)
        · rw [hcp] at h
          have hf : f = ⟨nm, a, rest, cs, ss⟩ := by
            have := h
            simp only [Except.ok.injEq] at this
            exact this.symm
          subst hf
          exact ⟨a, nm, rfl, rfl, rfl, rfl⟩
    | none =>
      right
      rw [Function.init, hdr] at h
      rcases hpb : processBody [] (l0 :: rest) with e | cs
      · rw [hpb] at h; exact absurd h (by simp)
      · rw [hpb] at h
        rcases hcp : count_pushes (l0 :: rest) with e | ss
        · rw [hcp] at h; exact absurd h (by simp)
        · rw [hcp] at h
          have hf : f = ⟨"unknown", 0, l0 :: rest, cs, ss⟩ := by
            have := h
            simp only [Except.ok.injEq] at this
            exact this.symm
          subst hf
          exact ⟨rfl, rfl, rfl, rfl⟩

/-- Witness for the amended C7: a two-line block with a valid header becomes
a record named `foo` at address 0x100 whose body is the single `ret` line. -/
theorem symbol_block_fields_witness :
    ∃ l0 rest, (["0100 <foo>:", " 104: 08 95 \tret"] : List String) = l0 :: rest
      ∧ ((∃ a nm, headerMatch l0 = some (a, nm)
            ∧ Function.name ⟨"foo", 256, [" 104: 08 95 \tret"], [], 0⟩ = nm
            ∧ Function.addr ⟨"foo", 256, [" 104: 08 95 \tret"], [], 0⟩ = a
            ∧ Function.body ⟨"foo", 256, [" 104: 08 95 \tret"], [], 0⟩ = rest)
        ∨ (headerMatch l0 = none
            ∧ Function.name ⟨"foo", 256, [" 104: 08 95 \tret"], [], 0⟩ = "unknown"
            ∧ Function.addr ⟨"foo", 256, [" 104: 08 95 \tret"], [], 0⟩ = 0
            ∧ Function.body ⟨"foo", 256, [" 104: 08 95 \tret"], [], 0⟩ = l0 :: rest)) :=
  symbol_block_fields ["0100 <foo>:", " 104: 08 95 \tret"]
    ⟨"foo", 256, [" 104: 08 95 \tret"], [], 0⟩ (by decide)

/-- Counterexample to C7 as stated: a block consisting of only a header line
(`"0012 <foo>:"`) does not yield a record — the callee loop's `body[-1]`
raises `IndexError` on the empty body. -/
theorem header_only_block_counterexample :
    Function.init ["0012 <foo>:"] = .error "IndexError: list index out of range" := by decide

/-- C1 amended: provided the walk never triggers the depth cap (no too-deep
marker in the output), the walker started at `(0, 0)` returns the maximum
cumulative stack size along any downward path (following callee edges,
never stepping from a function directly to itself); and on the spec's
example index the printed cumulative sizes are 10, 15, 18 and the returned
maximum is 18.  (Without the proviso the claim fails: see
`print_call_tree_deep_chain_counterexample`.) -/
theorem print_call_tree_returns_path_max :
    (∀ (idx : Index) (name : String),
      noTooDeep (print_call_tree idx name 0 0).2 = true →
      ∃ m, (print_call_tree idx name 0 0).1 = some m
        ∧ (∀ p, p.head? = some name → specGoodPath idx p = true → specPathCum idx p ≤ m)
        ∧ (∃ p, p.head? = some name ∧ specGoodPath idx p = true ∧ specPathCum idx p = m))
  ∧ print_call_tree exABC "A" 0 0
      = (some 18, [Line.node 10 10 0 "A", Line.node 15 5 1 "B", Line.node 18 3 2 "C"]) := by
  constructor
  · intro idx name hnd
    obtain ⟨m, h1, h2, h3⟩ := pct_paths idx name 0 0 hnd
    refine ⟨m, h1, ?_, ?_⟩
    · intro p hp hg
      have := h2 p hp hg
      omega
    · obtain ⟨p, hp1, hp2, hp3⟩ := h3
      exact ⟨p, hp1, hp2, by omega⟩
  · decide

/-- Witness for the amended C1, at the spec's example: the cap never fires
and the returned 18 is the path maximum. -/
theorem print_call_tree_returns_path_max_witness :
    noTooDeep (print_call_tree exABC "A" 0 0).2 = true
      ∧ ∃ m, (print_call_tree exABC "A" 0 0).1 = some m
        ∧ (∀ p, p.head? = some "A" → specGoodPath exABC p = true → specPathCum exABC p ≤ m)
        ∧ (∃ p, p.head? = some "A" ∧ specGoodPath exABC p = true ∧ specPathCum exABC p = m) :=
  ⟨by decide, print_call_tree_returns_path_max.1 exABC "A" (by decide)⟩

/-- Counterexample to C1 as stated: on a cycle-free 22-deep chain of
functions of stack size 1, the full downward path has cumulative size 22,
but the walker returns 21 — the node visited at depth 21 prints its
cumulative size and is then cut off by the cap, and its value never reaches
the returned maximum. -/
theorem print_call_tree_deep_chain_counterexample :
    (print_call_tree chainIdx "f00" 0 0).1 = some 21
      ∧ chainPath.head? = some "f00"
      ∧ specGoodPath chainIdx chainPath = true
      ∧ specPathCum chainIdx chainPath = 22 := by decide

/-- C2 amended: a node reached at depth greater than 20 prints its own line
and the too-deep marker, does not visit its callees, and returns `None`;
every walk started within the cap still completes with a value, namely the
maximum cumulative stack size over the printed nodes of depth at most 20 —
the cumulative size printed by a capped node itself is excluded from the
returned maximum (which refutes the claim's "returns the maximum cumulative
stack size observed": see `depth_cap_excludes_capped_node_counterexample`).
Under Python 2 (`max(None, m) = m`) this is exactly the script's behaviour;
under Python 3 the same bare `return` would instead make the parent's
`max(None, m)` raise `TypeError`. -/
theorem depth_cap_halts_branch :
    (∀ (idx : Index) (n : String) (ss : Int) (level : Nat), level > 20 →
      print_call_tree idx n ss level
        = (none, [Line.node (ss + ownSize idx n) (ownSize idx n) level n, Line.tooDeep level]))
  ∧ (∀ (idx : Index) (n : String) (ss : Int) (level : Nat), level ≤ 20 →
      (print_call_tree idx n ss level).1
        = some (maxCumCapped (print_call_tree idx n ss level).2)) :=
  ⟨fun idx n ss level h => pct_deep idx n ss level h,
   fun idx n ss level h => pct_max idx n ss level (by omega)⟩

/-- Witness for the amended C2, on the mutual-recursion cycle `A → B → A`:
at depth 21 the branch is halted with the marker, and the full walk from `A`
completes, returning the maximum within-cap printed cumulative size. -/
theorem depth_cap_halts_branch_witness :
    print_call_tree cycIdx "B" 1 21
        = (none, [Line.node (1 + ownSize cycIdx "B") (ownSize cycIdx "B") 21 "B",
                  Line.tooDeep 21])
      ∧ (print_call_tree cycIdx "A" 0 0).1
        = some (maxCumCapped (print_call_tree cycIdx "A" 0 0).2) :=
  ⟨depth_cap_halts_branch.1 cycIdx "B" 1 21 (by decide),
   depth_cap_halts_branch.2 cycIdx "A" 0 0 (by decide)⟩

/-- Counterexample to C2 as stated: on the cycle `A → B → A` (stack sizes 1)
the walk completes, but the node at depth 21 prints cumulative size 22 while
the walk returns 21 — the returned value is not the maximum cumulative stack
size observed. -/
theorem depth_cap_excludes_capped_node_counterexample :
    (print_call_tree cycIdx "A" 0 0).1 = some 21
      ∧ Line.node 22 1 21 "B" ∈ (print_call_tree cycIdx "A" 0 0).2 := by decide

/-- C8: a name absent from the index is a leaf, not an error: own size 0, no
callees expanded; a missing root warns (modelled as the Boolean in
`main_model`) but the walk still runs and reports deepest size 0. -/
theorem absent_function_leaf :
    (∀ (idx : Index) (n : String) (ss : Int) (level : Nat),
      idx n = none → level ≤ 20 →
      print_call_tree idx n ss level = (some ss, [Line.node ss 0 level n]))
  ∧ (∀ (idx : Index) (n : String), idx n = none →
      main_model idx n = (true, some 0, [Line.node 0 0 0 n])) := by
  constructor
  · intro idx n ss level hn hl
    exact pct_absent idx n ss level (by omega) hn
  · intro idx n hn
    rw [main_model, pct_absent idx n 0 0 (by omega) hn, hn]
    rfl

/-- Witness for C8: on the empty index, the walk from `main` prints one line
with cumulative and own size 0 and reports deepest stack size 0, after the
missing-root warning. -/
theorem absent_function_leaf_witness :
    main_model (fun _ => none) "main" = (true, some 0, [Line.node 0 0 0 "main"]) :=
  absent_function_leaf.2 (fun _ => none) "main" rfl

/-- C9: a function whose callee set contains its own name gets the
`Recursive call` marker, the walker does not descend into that callee, the
walk still returns a value, and when the self-edge is the only callee the
returned value counts the function's stack size exactly once. -/
theorem self_recursion_guard :
    ∀ (idx : Index) (n : String) (f : Function) (ss : Int) (level : Nat),
      level ≤ 20 → idx n = some f → n ∈ f.callees →
      (Line.recur level n ∈ (print_call_tree idx n ss level).2
        ∧ (∃ m, (print_call_tree idx n ss level).1 = some m)
        ∧ (f.callees = [n] →
            print_call_tree idx n ss level
              = (some (ss + f.stacksize),
                 [Line.node (ss + f.stacksize) f.stacksize level n,
                  Line.recur level n]))) := by
  intro idx n f ss level hl hn hself
  have h : ¬ level > 20 := by omega
  refine ⟨?_, ?_, ?_⟩
  · rw [pct_found idx n ss level f h hn]
    exact List.mem_cons_of_mem _
      (walkLines_mem_recur idx n (ss + f.stacksize) level f.callees hself)
  · rw [pct_found idx n ss level f h hn]
    exact ⟨_, rfl⟩
  · intro hsing
    rw [pct_found idx n ss level f h hn, hsing]
    rw [walkFst_all_self idx n (ss + f.stacksize) level [n] (by simp) (ss + f.stacksize)]
    simp [walkLines]

/-- Witness for C9: a function that calls only itself terminates at once,
with its stack size (7) counted exactly once. -/
theorem self_recursion_guard_witness :
    Line.recur 0 "A" ∈ (print_call_tree c9Idx "A" 0 0).2
      ∧ (∃ m, (print_call_tree c9Idx "A" 0 0).1 = some m)
      ∧ (c9F.callees = ["A"] →
          print_call_tree c9Idx "A" 0 0
            = (some (0 + c9F.stacksize),
               [Line.node (0 + c9F.stacksize) c9F.stacksize 0 "A", Line.recur 0 "A"])) :=
  self_recursion_guard c9Idx "A" c9F 0 0 (by omega) (by decide) (by decide)

/-- C10: the deepest stack size returned by the walker does not depend on
the order in which each function's callee set is enumerated: two indexes
that agree up to permutation of every callee list produce the same returned
value for every start name, ancestor total and depth. -/
theorem walker_order_independent :
    ∀ (idx idx' : Index), IndexEquiv idx idx' →
      ∀ (n : String) (ss : Int) (level : Nat),
        (print_call_tree idx n ss level).1 = (print_call_tree idx' n ss level).1 :=
  fun idx idx' heq n ss level => pct_fst_equiv idx idx' heq n ss level

/-- Witness for C10: enumerating `A`'s callees as `[B, C]` or `[C, B]`
yields the same deepest stack size from `A`. -/
theorem walker_order_independent_witness :
    (print_call_tree c10A "A" 0 0).1 = (print_call_tree c10B "A" 0 0).1 :=
  walker_order_independent c10A c10B
    (by
      intro n
      by_cases hA : n = "A"
      · subst hA
        exact Or.inr ⟨⟨"A", 0, [], ["B", "C"], 2⟩, ⟨"A", 0, [], ["C", "B"], 2⟩,
          rfl, rfl, rfl, by decide⟩
      · by_cases hB : n = "B"
        · subst hB
          exact Or.inr ⟨⟨"B", 0, [], [], 5⟩, ⟨"B", 0, [], [], 5⟩,
            by simp [c10A, hA], by simp [c10B, hA], rfl, List.Perm.refl _⟩
        · by_cases hC : n = "C"
          · subst hC
            exact Or.inr ⟨⟨"C", 0, [], [], 3⟩, ⟨"C", 0, [], [], 3⟩,
              by simp [c10A, hA, hB], by simp [c10B, hA, hB],
              rfl, List.Perm.refl _⟩
          · exact Or.inl ⟨by simp [c10A, hA, hB, hC], by simp [c10B, hA, hB, hC]⟩)
    "A" 0 0

end Avr
